import Mathlib

/-!
Verification of the AdGuardHome lease-management core and its auxiliary
packages (`internal/dhcpsvc`, `internal/whois`, `internal/schedule`).

The DHCP lease table itself is not implemented in the sources at hand: the
`internal/dhcpsvc` package only declares the `Interface` contract together
with the no-op `Empty` stub, so the table, its CRUD operations and the
allocation algorithm are modelled here from the specification (sections 3,
4.3 and 4.5).  The WHOIS response parser and the weekly schedule are
embedded directly from their Go sources.
-/

namespace Dhcp

/-- A DHCP lease, after `Lease` in `internal/dhcpsvc/dhcpsvc.go`.  IP
addresses are abstracted to naturals, hardware addresses and hostnames to
strings, and `Expiry` to an absolute natural timestamp. -/
structure Lease where
  ip : Nat
  expiry : Nat
  hostname : String
  hwAddr : String
  isStatic : Bool
deriving DecidableEq, Repr

/-- The typed failures of the administrative and allocation surface,
after the error taxonomy of the specification. -/
inductive DhcpError where
  | conflict
  | notFound
  | poolExhausted
deriving DecidableEq, Repr

/-- True if some lease in the table holds the given IP address. -/
def ipTaken (t : List Lease) (ip : Nat) : Bool :=
  t.any fun l => l.ip == ip

/-- True if the hostname is non-empty and held by some lease in the table. -/
def hostTaken (t : List Lease) (h : String) : Bool :=
  h != "" && t.any fun l => l.hostname == h

/-- True if some lease in the table holds the given hardware address. -/
def hwTaken (t : List Lease) (m : String) : Bool :=
  t.any fun l => l.hwAddr == m

/-- Modelled from the spec: a lease conflicts with the table when adding it
would violate one of the uniqueness invariants of section 3: a shared IP,
a shared non-empty hostname, or a hardware identity that is already bound. -/
def leaseConflicts (t : List Lease) (l : Lease) : Bool :=
  ipTaken t l.ip || hostTaken t l.hostname || hwTaken t l.hwAddr

/-- Modelled from the spec: `AddLease` of the missing lease-table
implementation; adds a fully-specified lease, failing with `Conflict` when a
uniqueness invariant would be violated. -/
def AddLease (t : List Lease) (l : Lease) : Except DhcpError (List Lease) :=
  if leaseConflicts t l then .error .conflict else .ok (t ++ [l])

/-- Lookup of a lease by IP address. -/
def lookupByIP (t : List Lease) (ip : Nat) : Option Lease :=
  t.find? fun l => l.ip == ip

/-- Lookup of a lease by hostname. -/
def lookupByHost (t : List Lease) (h : String) : Option Lease :=
  t.find? fun l => l.hostname == h

/-- Lookup of a lease by hardware identity. -/
def lookupByHW (t : List Lease) (m : String) : Option Lease :=
  t.find? fun l => l.hwAddr == m

/-- Method `HostByIP` of the `Interface` contract: the hostname of the client with
the given IP, with an `ok` flag. -/
def HostByIP (t : List Lease) (ip : Nat) : String × Bool :=
  match lookupByIP t ip with
  | some l => (l.hostname, true)
  | none => ("", false)

/-- Method `MACByIP` of the `Interface` contract: the hardware address of the
client with the given IP; `none` models the nil hardware address. -/
def MACByIP (t : List Lease) (ip : Nat) : Option String :=
  (lookupByIP t ip).map fun l => l.hwAddr

/-- Method `IPByHost` of the `Interface` contract: the IP of the client with the
given hostname, with an `ok` flag; `0` models the zero address. -/
def IPByHost (t : List Lease) (h : String) : Nat × Bool :=
  match lookupByHost t h with
  | some l => (l.ip, true)
  | none => (0, false)

/-- A lease matches the matcher lease when their IP and hardware identity
pairs agree exactly, after `Remove(matcher)` of the specification. -/
def leaseMatches (x l : Lease) : Bool :=
  x.ip == l.ip && x.hwAddr == l.hwAddr

/-- Modelled from the spec: `RemoveLease` of the missing lease-table
implementation; removes the lease matching the given IP+identity pair
exactly, failing with `NotFound` when no such lease exists. -/
def RemoveLease (t : List Lease) (l : Lease) : Except DhcpError (List Lease) :=
  if t.any fun x => leaseMatches x l then
    .ok (t.filter fun x => !leaseMatches x l)
  else
    .error .notFound

/-- Modelled from the spec: `EditLease` of the missing lease-table
implementation; atomically removes `old` and adds `new`, all-or-nothing. -/
def EditLease (t : List Lease) (old new : Lease) : Except DhcpError (List Lease) :=
  match RemoveLease t old with
  | .error e => .error e
  | .ok t1 =>
    match AddLease t1 new with
    | .error e => .error e
    | .ok t2 => .ok t2

/-- Modelled from the spec: `Reset` of the missing lease-table
implementation; clears all leases unconditionally. -/
def Reset (_t : List Lease) : Except DhcpError (List Lease) :=
  .ok []

/-- One operation of the exposed mutation surface. -/
inductive Op where
  | add (l : Lease)
  | edit (old new : Lease)
  | remove (l : Lease)
  | reset
deriving Repr

/-- Apply one mutation to the table; a failed operation leaves the table
unchanged (the caller only observes the typed failure). -/
def applyOp (t : List Lease) : Op → List Lease
  | .add l =>
    match AddLease t l with
    | .ok t1 => t1
    | .error _ => t
  | .edit o n =>
    match EditLease t o n with
    | .ok t1 => t1
    | .error _ => t
  | .remove l =>
    match RemoveLease t l with
    | .ok t1 => t1
    | .error _ => t
  | .reset => []

/-- Run a sequence of mutations from the empty table. -/
def runOps (ops : List Op) : List Lease :=
  ops.foldl applyOp []

/-- Invariant 1 of section 3: no two leases share an IP address. -/
def uniqueIPs (t : List Lease) : Prop :=
  t.Pairwise fun a b => a.ip ≠ b.ip

/-- Invariant 3 of section 3: no two leases share a non-empty hostname. -/
def uniqueHosts (t : List Lease) : Prop :=
  t.Pairwise fun a b => a.hostname ≠ "" → a.hostname ≠ b.hostname

/-- A hardware identity binds at most one lease. -/
def uniqueHW (t : List Lease) : Prop :=
  t.Pairwise fun a b => a.hwAddr ≠ b.hwAddr

/-- The conjunction of the table's uniqueness invariants. -/
def Wf (t : List Lease) : Prop :=
  uniqueIPs t ∧ uniqueHosts t ∧ uniqueHW t

/-- Modelled from the spec: the per-interface, per-family address pool
configuration consumed by the allocation algorithm. -/
structure PoolConfig where
  rangeStart : Nat
  rangeEnd : Nat
  gateway : Nat
  leaseDuration : Nat
deriving DecidableEq, Repr

/-- The pool contains an address when it lies within the configured range
bounds. -/
def poolContains (c : PoolConfig) (ip : Nat) : Bool :=
  decide (c.rangeStart ≤ ip ∧ ip ≤ c.rangeEnd)

/-- Modelled from the spec: `NextCandidate` of the AddressPool; the lowest
free address of the range that is not the gateway, not leased and not in
the exclusion set. -/
def NextCandidate (c : PoolConfig) (t : List Lease) (excluded : List Nat) :
    Option Nat :=
  ((List.range (c.rangeEnd + 1 - c.rangeStart)).map fun i => c.rangeStart + i).find?
    fun ip => !(ip == c.gateway) && !ipTaken t ip && !excluded.contains ip

/-- Renewal extends the expiry to `now + LeaseDuration`, leaving identity
and IP unchanged. -/
def renew (now dur : Nat) (l : Lease) : Lease :=
  { l with expiry := now + dur }

/-- Modelled from the spec: `Commit` of the LeaseTable; inserts a new lease
or renews the existing dynamic lease of the same hardware identity in
place, failing with `Conflict` when a uniqueness invariant would be
violated by a different identity. -/
def Commit (t : List Lease) (l : Lease) : Except DhcpError (List Lease) :=
  if t.any fun x =>
      x.hwAddr != l.hwAddr &&
        (x.ip == l.ip || (l.hostname != "" && x.hostname == l.hostname)) then
    .error .conflict
  else
    match lookupByHW t l.hwAddr with
    | some x =>
      if x.isStatic then .error .conflict
      else .ok (t.map fun y => if y.hwAddr == l.hwAddr then l else y)
    | none => .ok (t ++ [l])

/-- Modelled from the spec: steps 2 to 4 of the allocation algorithm — the
hostname-conflict check and the probe-and-retry candidate search, bounded
by the retry fuel; `probe ip = true` means the conflict probe saw the
address in use. -/
def probeSearch (c : PoolConfig) (t : List Lease) (probe : Nat → Bool)
    (excluded : List Nat) : Nat → Except DhcpError Nat
  | 0 => .error .poolExhausted
  | fuel + 1 =>
    match NextCandidate c t excluded with
    | none => .error .poolExhausted
    | some ip =>
      if probe ip then probeSearch c t probe (ip :: excluded) fuel
      else .ok ip

/-- The small fixed bound on probe retries of allocation step 4. -/
def allocRetries : Nat := 4

/-- Modelled from the spec: steps 2 to 5 of the allocation algorithm, taken
when the client's identity holds no renewable lease. -/
def allocateNew (c : PoolConfig) (probe : Nat → Bool) (t : List Lease)
    (id host : String) (now : Nat) : Except DhcpError (Lease × List Lease) :=
  if host != "" && t.any fun x => x.hostname == host && x.hwAddr != id then
    .error .conflict
  else
    match probeSearch c t probe [] allocRetries with
    | .error e => .error e
    | .ok ip =>
      let nl : Lease := Lease.mk ip (now + c.leaseDuration) host id false
      match Commit t nl with
      | .error e => .error e
      | .ok t1 => .ok (nl, t1)

/-- Modelled from the spec: the allocation entry point of the LeaseManager
(section 4.5).  Step 1 returns an existing static lease, or renews an
existing dynamic lease that is unexpired and still within the pool; the
remaining steps allocate a fresh address. -/
def allocate (c : PoolConfig) (probe : Nat → Bool) (t : List Lease)
    (id host : String) (now : Nat) : Except DhcpError (Lease × List Lease) :=
  match lookupByHW t id with
  | some l =>
    if l.isStatic then .ok (l, t)
    else if now < l.expiry ∧ poolContains c l.ip then
      .ok (renew now c.leaseDuration l,
        t.map fun y => if y.hwAddr == id then renew now c.leaseDuration l else y)
    else allocateNew c probe t id host now
  | none => allocateNew c probe t id host now

end Dhcp

namespace Whois

/-- Byte strings of the WHOIS code are modelled as lists of characters. -/
abbrev Str := List Char

/-- Whitespace as trimmed by `strings.TrimSpace` (the ASCII cases). -/
def isSpaceChar (c : Char) : Bool :=
  c == ' ' || c == '\t' || c == '\n' || c == '\x0b' || c == '\x0c' || c == '\r'

/-- Go `strings.TrimSpace`: drop leading and trailing whitespace. -/
def trimSpace (s : Str) : Str :=
  ((s.dropWhile isSpaceChar).reverse.dropWhile isSpaceChar).reverse

/-- Go `strings.ToLower` (the ASCII cases). -/
def lowerStr (s : Str) : Str :=
  s.map Char.toLower

/-- Go `bytes.Cut(l, ":")`: split at the first colon, if any. -/
def cutColon (l : Str) : Option (Str × Str) :=
  if l.contains ':' then
    some (l.takeWhile fun c => c != ':', (l.dropWhile fun c => c != ':').drop 1)
  else
    none

/-- Function `isWHOISComment` from `internal/whois/whois.go`: the line is empty or
starts with `#` or `%`. -/
def isWHOISComment (l : Str) : Bool :=
  l.isEmpty || l.head? == some '#' || l.head? == some '%'

/-- Function `trimValue` from `internal/whois/whois.go`: cut `s` and append `...` if
its length exceeds `max`. -/
def trimValue (s : Str) (max : Nat) : Str :=
  if s.length ≤ max then s else s.take (max - 3) ++ ['.', '.', '.']

/-- Go `stringutil.Coalesce` on two strings: the first non-empty one. -/
def coalesce (a b : Str) : Str :=
  if a.isEmpty then b else a

/-- Go `strings.TrimPrefix(val, "whois://")`. -/
def trimWhoisScheme (v : Str) : Str :=
  if ("whois://".toList).isPrefixOf v then v.drop 8 else v

/-- A Go `map[string]string`, as an association list without duplicate
keys: assignment overwrites the existing entry or appends a new one. -/
def mapSet (m : List (Str × Str)) (k v : Str) : List (Str × Str) :=
  if m.any fun kv => kv.1 == k then
    m.map fun kv => if kv.1 == k then (k, v) else kv
  else
    m ++ [(k, v)]

/-- Map lookup. -/
def mapGet (m : List (Str × Str)) (k : Str) : Option Str :=
  (m.find? fun kv => kv.1 == k).map fun kv => kv.2

/-- The `switch key` of `whoisParse`, applied to the lowercased key and the
trimmed value of one line; the state carries the map built so far and the
`orgname` accumulator variable. -/
def procKV (maxLen : Nat) (st : List (Str × Str) × Str) (key val : Str) :
    List (Str × Str) × Str :=
  if val.isEmpty then st
  else if key == "orgname".toList || key == "org-name".toList then
    (mapSet st.1 ("orgname".toList) (trimValue val maxLen), trimValue val maxLen)
  else if key == "city".toList || key == "country".toList then
    (mapSet st.1 key (trimValue val maxLen), st.2)
  else if key == "descr".toList || key == "netname".toList then
    (mapSet st.1 ("orgname".toList) (coalesce st.2 val), coalesce st.2 val)
  else if key == "whois".toList then
    (mapSet st.1 key val, st.2)
  else if key == "referralserver".toList then
    (mapSet st.1 ("whois".toList) (trimWhoisScheme val), st.2)
  else st

/-- One iteration of the line loop of `whoisParse`: skip comments and lines
without a colon, then switch on the lowercased key and trimmed value. -/
def lineStep (maxLen : Nat) (st : List (Str × Str) × Str) (l : Str) :
    List (Str × Str) × Str :=
  if isWHOISComment l then st
  else
    match cutColon l with
    | none => st
    | some ba => procKV maxLen st (lowerStr ba.1) (trimSpace ba.2)

/-- Function `whoisParse` from `internal/whois/whois.go`: split the response into
lines and process each one. -/
def whoisParse (data : Str) (maxLen : Nat) : List (Str × Str) :=
  ((data.splitOn '\n').foldl (lineStep maxLen) ([], [])).1

/-- The outcome of one `query` call, abstracting the network: `none` is a
dial/read error, `some data` the response bytes. -/
abbrev QueryOracle := Str → Option Str

/-- Go `net.JoinHostPort`, restricted to host names without colons. -/
def joinHostPort (host port : Str) : Str :=
  host ++ [':'] ++ port

/-- The success predicate of `net.SplitHostPort`, abstracted: the redirect
target already carries a port exactly when it contains a colon. -/
def hasPort (s : Str) : Bool :=
  s.contains ':'

/-- The possible failures of `queryAll`. -/
inductive WhoisErr where
  | queryFailed
  | redirectLoop
deriving DecidableEq, Repr

/-- The redirect-following loop of `Default.queryAll` from
`internal/whois/whois.go`, indexed by the remaining loop iterations.  The
result pairs the Go return values (the map, nil on failure, and the error)
with the number of `query` calls performed. -/
def queryAllLoop (oracle : QueryOracle) (maxInfoLen : Nat) (portStr : Str) :
    Nat → Str → (Option (List (Str × Str)) × Option WhoisErr) × Nat
  | 0, _ => ((none, some .redirectLoop), 0)
  | fuel + 1, server =>
    match oracle server with
    | none => ((none, some .queryFailed), 1)
    | some data =>
      let info := whoisParse data maxInfoLen
      match mapGet info ("whois".toList) with
      | none => ((some info, none), 1)
      | some redir0 =>
        let redir := lowerStr redir0
        let server1 := if hasPort redir then redir else joinHostPort redir portStr
        let rest := queryAllLoop oracle maxInfoLen portStr fuel server1
        (rest.1, rest.2 + 1)

/-- Method `Default.queryAll`: run the loop for `maxRedirects` iterations starting
at the configured server. -/
def queryAll (oracle : QueryOracle) (maxInfoLen maxRedirects : Nat)
    (serverAddr portStr : Str) :
    (Option (List (Str × Str)) × Option WhoisErr) × Nat :=
  queryAllLoop oracle maxInfoLen portStr maxRedirects
    (joinHostPort serverAddr portStr)

end Whois

namespace Sched

/-- Nanoseconds per day, `24 * time.Hour`. -/
def nsPerDay : Int := 86400000000000

/-- A time-zone location, modelled as a fixed offset from UTC in seconds
(`time.FixedZone`; daylight-saving transitions are not modelled). -/
structure Location where
  offsetSec : Int
deriving DecidableEq, Repr

/-- Type `DayRange` from `internal/schedule/schedule.go`: one interval within a
day; both bounds are offsets from the start of the day in nanoseconds. -/
structure DayRange where
  Start : Int
  End : Int
deriving DecidableEq, Repr

/-- Method `DayRange.contains`: `Start <= offset < End`. -/
def DayRange.contains (r : DayRange) (offset : Int) : Bool :=
  decide (r.Start ≤ offset ∧ offset < r.End)

/-- Type `Weekly` from `internal/schedule/schedule.go`: a location and one day
range per weekday (index 0 is Sunday, as in `time.Weekday`). -/
structure Weekly where
  loc : Location
  days : Fin 7 → DayRange

/-- An instant, as nanoseconds since the Unix epoch (UTC). -/
abbrev Instant := Int

/-- The wall-clock nanoseconds of an instant in a location (`t.In(loc)`
viewed as an absolute local time). -/
def localNanos (loc : Location) (t : Instant) : Int :=
  t + loc.offsetSec * 1000000000

/-- The calendar-day index of an instant in a location (days since the
epoch, negative before it). -/
def dayIndex (loc : Location) (t : Instant) : Int :=
  (localNanos loc t).fdiv nsPerDay

/-- Go `t.Weekday()` in a location; the Unix epoch fell on a Thursday, weekday
index 4. -/
def weekday (loc : Location) (t : Instant) : Fin 7 :=
  ⟨((dayIndex loc t + 4) % 7).toNat, by omega⟩

/-- Go `time.Date(y, m, d, 0, 0, 0, 0, loc)` for the calendar day of `t` in
`loc`: the instant of local midnight of that day. -/
def startOfDay (loc : Location) (t : Instant) : Int :=
  dayIndex loc t * nsPerDay - loc.offsetSec * 1000000000

/-- Method `Weekly.Contains` from `internal/schedule/schedule.go`: convert `t` to
the schedule's location, select the weekday's range, and test the offset of
`t` from the start of its day. -/
def Weekly.Contains (w : Weekly) (t : Instant) : Bool :=
  (w.days (weekday w.loc t)).contains (t - startOfDay w.loc t)

/-- The offset of `t` from the start of its calendar day in `loc`, as the
specification words it: the elapsed local time since local midnight. -/
def dayOffset (loc : Location) (t : Instant) : Int :=
  localNanos loc t % nsPerDay

end Sched

/-- The shape of one entry of the map built by `whoisParse`: the key is one
of the four known keys; entries other than `whois` hold a non-empty value;
`city` and `country` values respect the length bound. -/
def Whois.entryOK (maxLen : Nat) (kv : Whois.Str × Whois.Str) : Prop :=
  (kv.1 = "orgname".toList ∨ kv.1 = "city".toList ∨
    kv.1 = "country".toList ∨ kv.1 = "whois".toList) ∧
  (kv.1 ≠ "whois".toList → kv.2 ≠ []) ∧
  ((kv.1 = "city".toList ∨ kv.1 = "country".toList) → kv.2.length ≤ maxLen)

namespace Dhcp

theorem any_false_iff {p : Lease → Bool} {t : List Lease} :
    t.any p = false ↔ ∀ x ∈ t, p x = false := by
  rw [← Bool.not_eq_true, List.any_eq_true]
  simp

theorem AddLease_ok_eq {t t' : List Lease} {l : Lease}
    (h : AddLease t l = .ok t') : leaseConflicts t l = false ∧ t' = t ++ [l] := by
  unfold AddLease at h
  cases hb : leaseConflicts t l with
  | false => simp [hb] at h; exact ⟨rfl, h.symm⟩
  | true => simp [hb] at h

theorem leaseConflicts_false {t : List Lease} {l : Lease}
    (hc : leaseConflicts t l = false) :
    (∀ x ∈ t, (x.ip == l.ip) = false) ∧
      (l.hostname ≠ "" → ∀ x ∈ t, (x.hostname == l.hostname) = false) ∧
      (∀ x ∈ t, (x.hwAddr == l.hwAddr) = false) := by
  unfold leaseConflicts at hc
  rw [Bool.or_eq_false_iff, Bool.or_eq_false_iff] at hc
  obtain ⟨⟨hip, hhost⟩, hhw⟩ := hc
  refine ⟨any_false_iff.mp hip, ?_, any_false_iff.mp hhw⟩
  intro hne
  unfold hostTaken at hhost
  rw [Bool.and_eq_false_iff] at hhost
  cases hhost with
  | inl h0 => exact absurd (by simpa using h0) hne
  | inr h1 => exact any_false_iff.mp h1

theorem Wf_nil : Wf [] := by
  refine ⟨List.Pairwise.nil, List.Pairwise.nil, List.Pairwise.nil⟩

theorem Wf_append_singleton {t : List Lease} {l : Lease} (hwf : Wf t)
    (hc : leaseConflicts t l = false) : Wf (t ++ [l]) := by
  obtain ⟨hip, hhost, hhw⟩ := leaseConflicts_false hc
  obtain ⟨wip, whost, whw⟩ := hwf
  refine ⟨?_, ?_, ?_⟩
  · rw [uniqueIPs, List.pairwise_append]
    refine ⟨wip, by simp, ?_⟩
    intro a ha b hb
    rw [List.mem_singleton] at hb
    subst hb
    have := hip a ha
    simpa using this
  · rw [uniqueHosts, List.pairwise_append]
    refine ⟨whost, by simp, ?_⟩
    intro a ha b hb hne
    rw [List.mem_singleton] at hb
    subst hb
    intro heq
    have hlne : b.hostname ≠ "" := by rw [← heq]; exact hne
    have := hhost hlne a ha
    rw [heq] at this
    simp at this
  · rw [uniqueHW, List.pairwise_append]
    refine ⟨whw, by simp, ?_⟩
    intro a ha b hb
    rw [List.mem_singleton] at hb
    subst hb
    have := hhw a ha
    simpa using this

theorem Wf_filter {t : List Lease} (p : Lease → Bool) (hwf : Wf t) :
    Wf (t.filter p) :=
  ⟨hwf.1.filter p, hwf.2.1.filter p, hwf.2.2.filter p⟩

theorem Wf_AddLease {t t' : List Lease} {l : Lease} (hwf : Wf t)
    (h : AddLease t l = .ok t') : Wf t' := by
  obtain ⟨hc, rfl⟩ := AddLease_ok_eq h
  exact Wf_append_singleton hwf hc

theorem RemoveLease_ok_eq {t t' : List Lease} {l : Lease}
    (h : RemoveLease t l = .ok t') :
    (∃ x ∈ t, leaseMatches x l = true) ∧
      t' = t.filter fun x => !leaseMatches x l := by
  unfold RemoveLease at h
  cases hb : t.any fun x => leaseMatches x l with
  | false => simp [hb] at h
  | true => simp [hb] at h; exact ⟨List.any_eq_true.mp hb, h.symm⟩

theorem Wf_RemoveLease {t t' : List Lease} {l : Lease} (hwf : Wf t)
    (h : RemoveLease t l = .ok t') : Wf t' := by
  obtain ⟨-, rfl⟩ := RemoveLease_ok_eq h
  exact Wf_filter _ hwf

theorem EditLease_ok_eq {t t' : List Lease} {old new : Lease}
    (h : EditLease t old new = .ok t') :
    ∃ t1, RemoveLease t old = .ok t1 ∧ AddLease t1 new = .ok t' := by
  cases h1 : RemoveLease t old with
  | error e => simp [EditLease, h1] at h
  | ok t1 =>
    cases h2 : AddLease t1 new with
    | error e => simp [EditLease, h1, h2] at h
    | ok t2 =>
      have ht : t2 = t' := by simpa [EditLease, h1, h2] using h
      subst ht
      exact ⟨t1, rfl, h2⟩

theorem Wf_EditLease {t t' : List Lease} {old new : Lease} (hwf : Wf t)
    (h : EditLease t old new = .ok t') : Wf t' := by
  obtain ⟨t1, h1, h2⟩ := EditLease_ok_eq h
  exact Wf_AddLease (Wf_RemoveLease hwf h1) h2

theorem Wf_applyOp {t : List Lease} (hwf : Wf t) (op : Op) :
    Wf (applyOp t op) := by
  cases op with
  | add l =>
    cases h : AddLease t l with
    | ok t1 =>
      have he : applyOp t (.add l) = t1 := by simp [applyOp, h]
      rw [he]; exact Wf_AddLease hwf h
    | error e =>
      have he : applyOp t (.add l) = t := by simp [applyOp, h]
      rw [he]; exact hwf
  | edit o n =>
    cases h : EditLease t o n with
    | ok t1 =>
      have he : applyOp t (.edit o n) = t1 := by simp [applyOp, h]
      rw [he]; exact Wf_EditLease hwf h
    | error e =>
      have he : applyOp t (.edit o n) = t := by simp [applyOp, h]
      rw [he]; exact hwf
  | remove l =>
    cases h : RemoveLease t l with
    | ok t1 =>
      have he : applyOp t (.remove l) = t1 := by simp [applyOp, h]
      rw [he]; exact Wf_RemoveLease hwf h
    | error e =>
      have he : applyOp t (.remove l) = t := by simp [applyOp, h]
      rw [he]; exact hwf
  | reset => exact Wf_nil

theorem Wf_foldl (ops : List Op) : ∀ t : List Lease, Wf t →
    Wf (ops.foldl applyOp t) := by
  induction ops with
  | nil => intro t hwf; exact hwf
  | cons op rest ih =>
    intro t hwf
    exact ih (applyOp t op) (Wf_applyOp hwf op)

/-- C1: starting from the empty lease table, every finite sequence of
operations of the exposed mutation surface (AddLease, EditLease,
RemoveLease, Reset) leaves, at every intermediate state, a table in which
no two leases share an IP address. -/
theorem runOps_uniqueIPs (ops : List Op) : uniqueIPs (runOps ops) :=
  (Wf_foldl ops [] Wf_nil).1

theorem find?_append_of_forall_false {p : Lease → Bool} {t : List Lease}
    (h : ∀ x ∈ t, p x = false) (t2 : List Lease) :
    (t ++ t2).find? p = t2.find? p := by
  rw [List.find?_append, List.find?_eq_none.mpr fun x hx => by simp [h x hx]]
  rfl

/-- C2: a successful `AddLease` leaves the lease in the table: it is a
member of the new table, lookup by its IP finds it, and, when its hostname
is non-empty, lookup by its hostname finds it. -/
theorem AddLease_ok_present {t t' : List Lease} {l : Lease}
    (h : AddLease t l = .ok t') :
    l ∈ t' ∧ lookupByIP t' l.ip = some l ∧
      (l.hostname ≠ "" → lookupByHost t' l.hostname = some l) := by
  obtain ⟨hc, rfl⟩ := AddLease_ok_eq h
  obtain ⟨hip, hhost, -⟩ := leaseConflicts_false hc
  refine ⟨by simp, ?_, ?_⟩
  · rw [lookupByIP, find?_append_of_forall_false hip]
    simp [List.find?]
  · intro hne
    rw [lookupByHost, find?_append_of_forall_false (hhost hne)]
    simp [List.find?]

/-- C3: a successful `EditLease old new` yields exactly the table the edit
describes, and lookup by `new`'s keys returns exactly `new`; a failed
`EditLease` leaves the table unchanged, so lookup by `old`'s key still
returns exactly `old`. -/
theorem EditLease_roundtrip (t : List Lease) (old new : Lease) :
    (∀ t', EditLease t old new = .ok t' →
      applyOp t (.edit old new) = t' ∧ lookupByIP t' new.ip = some new ∧
        (new.hostname ≠ "" → lookupByHost t' new.hostname = some new)) ∧
    (∀ e, EditLease t old new = .error e →
      applyOp t (.edit old new) = t ∧
        (lookupByIP t old.ip = some old →
          lookupByIP (applyOp t (.edit old new)) old.ip = some old)) := by
  constructor
  · intro t' h
    obtain ⟨t1, h1, h2⟩ := EditLease_ok_eq h
    have happ : applyOp t (.edit old new) = t' := by simp [applyOp, h]
    have hpres := AddLease_ok_present h2
    exact ⟨happ, hpres.2.1, hpres.2.2⟩
  · intro e h
    have happ : applyOp t (.edit old new) = t := by simp [applyOp, h]
    exact ⟨happ, fun hold => by rw [happ]; exact hold⟩

/-- C4: `RemoveLease` fails with `NotFound` exactly when no lease matching
the IP+identity pair of the matcher exists; on success the matching lease
is removed and nothing else is added. -/
theorem RemoveLease_spec (t : List Lease) (l : Lease) :
    ((∀ x ∈ t, leaseMatches x l = false) →
      RemoveLease t l = .error .notFound) ∧
    (∀ t', RemoveLease t l = .ok t' →
      (∃ x ∈ t, leaseMatches x l = true) ∧
        (∀ x ∈ t', leaseMatches x l = false) ∧ (∀ x ∈ t', x ∈ t)) := by
  constructor
  · intro h
    have : (t.any fun x => leaseMatches x l) = false := any_false_iff.mpr h
    simp [RemoveLease, this]
  · intro t' h
    obtain ⟨hex, rfl⟩ := RemoveLease_ok_eq h
    refine ⟨hex, ?_, ?_⟩
    · intro x hx
      have := List.of_mem_filter hx
      simpa using this
    · intro x hx
      exact List.mem_of_mem_filter hx

/-- C5: after `Reset` the table is empty, whatever the previous state: the
operation succeeds with the empty table, and every query on the empty
table reports not-found. -/
theorem Reset_empties (t : List Lease) :
    Reset t = .ok [] ∧ applyOp t .reset = [] ∧
      (∀ ip, HostByIP [] ip = ("", false) ∧ MACByIP [] ip = none) ∧
      (∀ h, IPByHost [] h = (0, false)) := by
  refine ⟨rfl, rfl, ?_, ?_⟩
  · intro ip
    exact ⟨rfl, rfl⟩
  · intro h
    rfl

theorem lookupByIP_mem {t : List Lease} (huniq : uniqueIPs t) {l : Lease}
    (hl : l ∈ t) : lookupByIP t l.ip = some l := by
  induction t with
  | nil => cases hl
  | cons a rest ih =>
    rcases List.mem_cons.mp hl with rfl | hmem
    · rw [lookupByIP]
      exact List.find?_cons_of_pos _ (by simp)
    · have hne : a.ip ≠ l.ip := (List.pairwise_cons.mp huniq).1 l hmem
      rw [lookupByIP]
      rw [List.find?_cons_of_neg _ (by simp [hne])]
      exact ih (List.pairwise_cons.mp huniq).2 hmem

theorem lookupByHost_mem {t : List Lease} (huniq : uniqueHosts t) {l : Lease}
    (hl : l ∈ t) (hne : l.hostname ≠ "") :
    lookupByHost t l.hostname = some l := by
  induction t with
  | nil => cases hl
  | cons a rest ih =>
    rcases List.mem_cons.mp hl with rfl | hmem
    · rw [lookupByHost]
      exact List.find?_cons_of_pos _ (by simp)
    · have hane : a.hostname ≠ l.hostname := by
        intro heq
        have hh : a.hostname ≠ "" := by rw [heq]; exact hne
        exact (List.pairwise_cons.mp huniq).1 l hmem hh heq
      rw [lookupByHost]
      rw [List.find?_cons_of_neg _ (by simp [hane])]
      exact ih (List.pairwise_cons.mp huniq).2 hmem

theorem lookupByHW_mem {t : List Lease} (huniq : uniqueHW t) {l : Lease}
    (hl : l ∈ t) : lookupByHW t l.hwAddr = some l := by
  induction t with
  | nil => cases hl
  | cons a rest ih =>
    rcases List.mem_cons.mp hl with rfl | hmem
    · rw [lookupByHW]
      exact List.find?_cons_of_pos _ (by simp)
    · have hne : a.hwAddr ≠ l.hwAddr := (List.pairwise_cons.mp huniq).1 l hmem
      rw [lookupByHW]
      rw [List.find?_cons_of_neg _ (by simp [hne])]
      exact ih (List.pairwise_cons.mp huniq).2 hmem

/-- C6: on a table satisfying the uniqueness invariants, the query surface
is mutually consistent: each lease is found by each of its keys with the
matching attributes, and keys held by no lease report not-found. -/
theorem query_surface_consistent (t : List Lease) (hwf : Wf t) :
    (∀ l ∈ t, HostByIP t l.ip = (l.hostname, true) ∧
      MACByIP t l.ip = some l.hwAddr ∧
      (l.hostname ≠ "" → IPByHost t l.hostname = (l.ip, true))) ∧
    (∀ ip, (∀ x ∈ t, x.ip ≠ ip) →
      HostByIP t ip = ("", false) ∧ MACByIP t ip = none) ∧
    (∀ h, (∀ x ∈ t, x.hostname ≠ h) → IPByHost t h = (0, false)) := by
  obtain ⟨wip, whost, whw⟩ := hwf
  refine ⟨?_, ?_, ?_⟩
  · intro l hl
    have hip := lookupByIP_mem wip hl
    refine ⟨?_, ?_, ?_⟩
    · rw [HostByIP, hip]
    · rw [MACByIP, hip]; rfl
    · intro hne
      rw [IPByHost, lookupByHost_mem whost hl hne]
  · intro ip hnone
    have : lookupByIP t ip = none :=
      List.find?_eq_none.mpr fun x hx => by simp [hnone x hx]
    exact ⟨by rw [HostByIP, this], by rw [MACByIP, this]; rfl⟩
  · intro h hnone
    have : lookupByHost t h = none :=
      List.find?_eq_none.mpr fun x hx => by simp [hnone x hx]
    rw [IPByHost, this]

theorem find?_map_replace (t : List Lease) (id : String) (l2 : Lease)
    (h : l2.hwAddr = id) :
    ((t.map fun y => if y.hwAddr == id then l2 else y).find?
        fun y => y.hwAddr == id) =
      (t.find? fun y => y.hwAddr == id).map fun _ => l2 := by
  induction t with
  | nil => rfl
  | cons a rest ih =>
    by_cases ha : a.hwAddr = id
    · have he : (if (a.hwAddr == id) = true then l2 else a) = l2 := by
        simp [ha]
      simp only [List.map_cons, he]
      rw [List.find?_cons_of_pos _ (by simp [h]),
        List.find?_cons_of_pos _ (by simp [ha])]
      rfl
    · have he : (if (a.hwAddr == id) = true then l2 else a) = a := by
        simp [ha]
      simp only [List.map_cons, he]
      rw [List.find?_cons_of_neg _ (by simp [ha]),
        List.find?_cons_of_neg _ (by simp [ha])]
      exact ih

/-- C7: allocation is idempotent per client: when the hardware identity
already holds a static lease, or an unexpired dynamic lease whose address
is still within the pool configuration, allocation returns the same IP
address, leaves the static flag and identity unchanged, and the identity
remains bound to that same IP afterwards (so every repeated request before
expiry yields the same address). -/
theorem allocate_idempotent (c : PoolConfig) (probe : Nat → Bool)
    (t : List Lease) (id host : String) (now : Nat) (l : Lease)
    (hfound : lookupByHW t id = some l)
    (hvalid : l.isStatic = true ∨
      (l.isStatic = false ∧ now < l.expiry ∧ poolContains c l.ip = true)) :
    ∃ l2 t', allocate c probe t id host now = .ok (l2, t') ∧
      l2.ip = l.ip ∧ l2.isStatic = l.isStatic ∧ l2.hwAddr = l.hwAddr ∧
      lookupByHW t' id = some l2 ∧
      (l.isStatic = false → l2.expiry = now + c.leaseDuration) := by
  have hhw : l.hwAddr = id := by
    have := List.find?_some hfound
    simpa using this
  cases hvalid with
  | inl hstatic =>
    refine ⟨l, t, ?_, rfl, rfl, rfl, hfound, ?_⟩
    · simp [allocate, hfound, hstatic]
    · intro hdyn
      rw [hstatic] at hdyn
      cases hdyn
  | inr hdyn =>
    obtain ⟨hst, hexp, hpool⟩ := hdyn
    refine ⟨renew now c.leaseDuration l,
      t.map fun y => if y.hwAddr == id then renew now c.leaseDuration l else y,
      ?_, rfl, rfl, rfl, ?_, fun _ => rfl⟩
    · simp [allocate, hfound, hst, hexp, hpool]
    · rw [lookupByHW, find?_map_replace _ _ _ (by simpa [renew] using hhw),
        ← lookupByHW, hfound]
      rfl

theorem AddLease_ok_present_witness :
    Lease.mk 10 0 "alpha" "aa" true ∈ [Lease.mk 10 0 "alpha" "aa" true] ∧
      lookupByIP [Lease.mk 10 0 "alpha" "aa" true] 10 =
        some (Lease.mk 10 0 "alpha" "aa" true) ∧
      ((Lease.mk 10 0 "alpha" "aa" true).hostname ≠ "" →
        lookupByHost [Lease.mk 10 0 "alpha" "aa" true] "alpha" =
          some (Lease.mk 10 0 "alpha" "aa" true)) :=
  AddLease_ok_present (t := []) rfl

theorem EditLease_roundtrip_witness :
    applyOp [Lease.mk 10 0 "a" "aa" true]
        (.edit (Lease.mk 10 0 "a" "aa" true) (Lease.mk 11 0 "b" "aa" true)) =
      [Lease.mk 11 0 "b" "aa" true] ∧
      lookupByIP [Lease.mk 11 0 "b" "aa" true] 11 =
        some (Lease.mk 11 0 "b" "aa" true) ∧
      ((Lease.mk 11 0 "b" "aa" true).hostname ≠ "" →
        lookupByHost [Lease.mk 11 0 "b" "aa" true] "b" =
          some (Lease.mk 11 0 "b" "aa" true)) :=
  (EditLease_roundtrip [Lease.mk 10 0 "a" "aa" true]
    (Lease.mk 10 0 "a" "aa" true) (Lease.mk 11 0 "b" "aa" true)).1
    [Lease.mk 11 0 "b" "aa" true] rfl

theorem RemoveLease_spec_witness :
    RemoveLease ([] : List Lease) (Lease.mk 10 0 "" "aa" true) =
      .error .notFound :=
  (RemoveLease_spec [] (Lease.mk 10 0 "" "aa" true)).1 (by simp)

theorem query_surface_consistent_witness :
    HostByIP [Lease.mk 10 0 "a" "aa" true, Lease.mk 11 0 "b" "bb" false] 11 =
      ("b", true) :=
  ((query_surface_consistent
      [Lease.mk 10 0 "a" "aa" true, Lease.mk 11 0 "b" "bb" false]
      ⟨by simp [uniqueIPs], by simp [uniqueHosts], by simp [uniqueHW]⟩).1
    (Lease.mk 11 0 "b" "bb" false) (by simp)).1

theorem allocate_idempotent_witness :
    ∃ l2 t', allocate (PoolConfig.mk 10 12 1 3600) (fun _ => false)
        [Lease.mk 10 0 "" "aa" true] "aa" "" 5 = .ok (l2, t') ∧
      l2.ip = (Lease.mk 10 0 "" "aa" true).ip ∧
      l2.isStatic = (Lease.mk 10 0 "" "aa" true).isStatic ∧
      l2.hwAddr = (Lease.mk 10 0 "" "aa" true).hwAddr ∧
      lookupByHW t' "aa" = some l2 ∧
      ((Lease.mk 10 0 "" "aa" true).isStatic = false →
        l2.expiry = 5 + (PoolConfig.mk 10 12 1 3600).leaseDuration) :=
  allocate_idempotent (PoolConfig.mk 10 12 1 3600) (fun _ => false)
    [Lease.mk 10 0 "" "aa" true] "aa" "" 5 (Lease.mk 10 0 "" "aa" true)
    rfl (Or.inl rfl)

end Dhcp

namespace Whois

theorem trimValue_length {s : Str} {max : Nat} (h : 3 ≤ max) :
    (trimValue s max).length ≤ max := by
  unfold trimValue
  split
  · assumption
  · simp only [List.length_append, List.length_take, List.length_cons,
      List.length_nil]
    omega

theorem trimValue_ne_nil {s : Str} {max : Nat} (h : s ≠ []) :
    trimValue s max ≠ [] := by
  unfold trimValue
  split
  · exact h
  · simp

theorem coalesce_ne_nil {a b : Str} (hb : b ≠ []) : coalesce a b ≠ [] := by
  unfold coalesce
  split
  · exact hb
  · next ha => simpa [List.isEmpty_iff] using ha

theorem mapSet_forall {m : List (Str × Str)} {Q : Str × Str → Prop}
    (hm : ∀ kv ∈ m, Q kv) {k v : Str} (hkv : Q (k, v)) :
    ∀ kv ∈ mapSet m k v, Q kv := by
  intro kv hmem
  unfold mapSet at hmem
  split at hmem
  · rcases List.mem_map.mp hmem with ⟨kv0, hkv0, heq⟩
    by_cases hk : (kv0.1 == k) = true
    · rw [if_pos hk] at heq
      subst heq
      exact hkv
    · rw [if_neg hk] at heq
      subst heq
      exact hm kv0 hkv0
  · rcases List.mem_append.mp hmem with h1 | h2
    · exact hm kv h1
    · rw [List.mem_singleton] at h2
      subst h2
      exact hkv

theorem procKV_entryOK {maxLen : Nat} (h3 : 3 ≤ maxLen)
    {st : List (Str × Str) × Str} (hst : ∀ kv ∈ st.1, entryOK maxLen kv)
    (key val : Str) : ∀ kv ∈ (procKV maxLen st key val).1, entryOK maxLen kv := by
  unfold procKV
  by_cases hv : val.isEmpty = true
  · rw [if_pos hv]
    exact hst
  · rw [if_neg hv]
    have hvne : val ≠ [] := by simpa [List.isEmpty_iff] using hv
    by_cases h1 : (key == "orgname".toList || key == "org-name".toList) = true
    · rw [if_pos h1]
      refine mapSet_forall hst ⟨Or.inl rfl, fun _ => trimValue_ne_nil hvne, ?_⟩
      intro hc
      rcases hc with hc | hc
      · exact absurd (show ("orgname".toList : Str) = "city".toList from hc)
          (by decide)
      · exact absurd (show ("orgname".toList : Str) = "country".toList from hc)
          (by decide)
    · rw [if_neg h1]
      by_cases h2 : (key == "city".toList || key == "country".toList) = true
      · rw [if_pos h2]
        have hk : key = "city".toList ∨ key = "country".toList := by
          simpa using h2
        refine mapSet_forall hst ⟨?_, fun _ => trimValue_ne_nil hvne,
          fun _ => trimValue_length h3⟩
        rcases hk with hk | hk
        · exact Or.inr (Or.inl hk)
        · exact Or.inr (Or.inr (Or.inl hk))
      · rw [if_neg h2]
        by_cases h4 : (key == "descr".toList || key == "netname".toList) = true
        · rw [if_pos h4]
          refine mapSet_forall hst
            ⟨Or.inl rfl, fun _ => coalesce_ne_nil hvne, ?_⟩
          intro hc
          rcases hc with hc | hc
          · exact absurd (show ("orgname".toList : Str) = "city".toList from hc)
              (by decide)
          · exact absurd
              (show ("orgname".toList : Str) = "country".toList from hc)
              (by decide)
        · rw [if_neg h4]
          by_cases h5 : (key == "whois".toList) = true
          · rw [if_pos h5]
            have hk : key = "whois".toList := by simpa using h5
            refine mapSet_forall hst
              ⟨Or.inr (Or.inr (Or.inr hk)), fun hne => absurd hk hne, ?_⟩
            intro hc
            rcases hc with hc | hc
            · have hc2 : key = "city".toList := hc
              rw [hk] at hc2
              exact absurd hc2 (by decide)
            · have hc2 : key = "country".toList := hc
              rw [hk] at hc2
              exact absurd hc2 (by decide)
          · rw [if_neg h5]
            by_cases h6 : (key == "referralserver".toList) = true
            · rw [if_pos h6]
              refine mapSet_forall hst
                ⟨Or.inr (Or.inr (Or.inr rfl)), fun hne => absurd rfl hne, ?_⟩
              intro hc
              rcases hc with hc | hc
              · exact absurd (show ("whois".toList : Str) = "city".toList from hc)
                  (by decide)
              · exact absurd
                  (show ("whois".toList : Str) = "country".toList from hc)
                  (by decide)
            · rw [if_neg h6]
              exact hst

theorem lineStep_entryOK {maxLen : Nat} (h3 : 3 ≤ maxLen)
    {st : List (Str × Str) × Str} (hst : ∀ kv ∈ st.1, entryOK maxLen kv)
    (l : Str) : ∀ kv ∈ (lineStep maxLen st l).1, entryOK maxLen kv := by
  unfold lineStep
  by_cases hcom : isWHOISComment l = true
  · rw [if_pos hcom]
    exact hst
  · rw [if_neg hcom]
    cases hc : cutColon l with
    | none => exact hst
    | some ba => exact procKV_entryOK h3 hst _ _

theorem foldl_lineStep_entryOK {maxLen : Nat} (h3 : 3 ≤ maxLen)
    (lines : List Str) :
    ∀ st, (∀ kv ∈ st.1, entryOK maxLen kv) →
      ∀ kv ∈ (lines.foldl (lineStep maxLen) st).1, entryOK maxLen kv := by
  induction lines with
  | nil => intro st hst; exact hst
  | cons l rest ih => intro st hst; exact ih _ (lineStep_entryOK h3 hst l)

/-- C8 (amended): for every input and every `maxLen` greater than 3, the
map returned by `whoisParse` has keys only among `orgname`, `city`,
`country` and `whois`; the values under `orgname`, `city` and `country`
are never empty; the values under `city` and `country` have length at most
`maxLen`.  (The value under `whois` can be empty, and the value under
`orgname` can exceed `maxLen`: see the counterexample.) -/
theorem whoisParse_entries (data : Str) (maxLen : Nat) (h : 3 < maxLen) :
    ∀ kv ∈ whoisParse data maxLen, entryOK maxLen kv := by
  unfold whoisParse
  exact foldl_lineStep_entryOK (by omega) _ _ (by simp)

theorem whoisParse_entries_witness :
    3 < 250 ∧ ∀ kv ∈ whoisParse ("city: Nonreal".toList) 250, entryOK 250 kv :=
  ⟨by decide, whoisParse_entries ("city: Nonreal".toList) 250 (by decide)⟩

/-- C8 fails as stated on two counts: a `descr` line stores an untrimmed
`orgname` value longer than `maxLen`, and a `referralserver` line whose
value is exactly `whois://` stores the empty string under `whois`. -/
theorem whoisParse_c8_counterexample :
    3 < 4 ∧
      mapGet (whoisParse ("descr: aloha".toList) 4) ("orgname".toList) =
        some ("aloha".toList) ∧
      4 < ("aloha".toList).length ∧
      3 < 10 ∧
      mapGet (whoisParse ("referralserver:whois://".toList) 10)
        ("whois".toList) = some [] := by
  refine ⟨by decide, by decide, by decide, by decide, by decide⟩

end Whois

namespace Sched

theorem sub_startOfDay (loc : Location) (t : Instant) :
    t - startOfDay loc t = dayOffset loc t := by
  unfold startOfDay dayOffset dayIndex localNanos nsPerDay
  rw [Int.fdiv_eq_ediv _ (by norm_num), Int.emod_def]
  ring

theorem dayOffset_nonneg (loc : Location) (t : Instant) :
    0 ≤ dayOffset loc t :=
  Int.emod_nonneg _ (by norm_num [nsPerDay])

/-- C9: `Weekly.Contains t` is true exactly when the offset of `t` from the
start of its calendar day in the schedule's location lies in the selected
weekday's range, `Start <= offset < End`; in particular a weekday whose
range is the zero value contains no instant at all. -/
theorem Weekly_Contains_iff (w : Weekly) (t : Instant) :
    (w.Contains t = true ↔
      ((w.days (weekday w.loc t)).Start ≤ dayOffset w.loc t ∧
        dayOffset w.loc t < (w.days (weekday w.loc t)).End)) ∧
    (w.days (weekday w.loc t) = DayRange.mk 0 0 → w.Contains t = false) := by
  constructor
  · rw [Weekly.Contains, DayRange.contains, sub_startOfDay]
    exact decide_eq_true_iff
  · intro hzero
    rw [Weekly.Contains, DayRange.contains, sub_startOfDay, hzero]
    have hnn := dayOffset_nonneg w.loc t
    simp only [decide_eq_false_iff_not]
    intro hc
    have hlt : dayOffset w.loc t < 0 := hc.2
    omega

theorem Weekly_Contains_iff_witness :
    (Weekly.mk (Location.mk 0) fun _ => DayRange.mk 0 0).days
        (weekday (Location.mk 0) 0) = DayRange.mk 0 0 ∧
      (Weekly.mk (Location.mk 0) fun _ => DayRange.mk 0 0).Contains 0 = false :=
  ⟨rfl, (Weekly_Contains_iff (Weekly.mk (Location.mk 0) fun _ => DayRange.mk 0 0)
    0).2 rfl⟩

end Sched

namespace Whois

theorem queryAllLoop_count (oracle : QueryOracle) (maxInfoLen : Nat)
    (portStr : Str) : ∀ fuel server,
    (queryAllLoop oracle maxInfoLen portStr fuel server).2 ≤ fuel := by
  intro fuel
  induction fuel with
  | zero => intro server; simp [queryAllLoop]
  | succ n ih =>
    intro server
    cases ho : oracle server with
    | none => simp only [queryAllLoop, ho]; omega
    | some data =>
      cases hg : mapGet (whoisParse data maxInfoLen) ("whois".toList) with
      | none => simp only [queryAllLoop, ho, hg]; omega
      | some redir0 =>
        simp only [queryAllLoop, ho, hg]
        have := ih (if hasPort (lowerStr redir0) then lowerStr redir0
          else joinHostPort (lowerStr redir0) portStr)
        omega

theorem queryAllLoop_all_redirect (oracle : QueryOracle) (maxInfoLen : Nat)
    (portStr : Str)
    (h : ∀ s, ∃ data, oracle s = some data ∧
      (mapGet (whoisParse data maxInfoLen) ("whois".toList)).isSome = true) :
    ∀ fuel server,
      (queryAllLoop oracle maxInfoLen portStr fuel server).1 =
        (none, some .redirectLoop) := by
  intro fuel
  induction fuel with
  | zero => intro server; rfl
  | succ n ih =>
    intro server
    obtain ⟨data, ho, hsome⟩ := h server
    obtain ⟨redir0, hg⟩ := Option.isSome_iff_exists.mp hsome
    simp only [queryAllLoop, ho, hg]
    exact ih _

/-- C10: the redirect-following loop of `queryAll` performs at most
`maxRedirects` queries; and when every query succeeds with a response whose
parsed map contains the `whois` redirect key, `queryAll` returns the nil
map together with the redirect-loop error instead of following further. -/
theorem queryAll_redirect_bound (oracle : QueryOracle)
    (maxInfoLen maxRedirects : Nat) (serverAddr portStr : Str) :
    (queryAll oracle maxInfoLen maxRedirects serverAddr portStr).2 ≤
        maxRedirects ∧
      ((∀ s, ∃ data, oracle s = some data ∧
          (mapGet (whoisParse data maxInfoLen) ("whois".toList)).isSome = true) →
        (queryAll oracle maxInfoLen maxRedirects serverAddr portStr).1 =
          (none, some .redirectLoop)) :=
  ⟨queryAllLoop_count oracle maxInfoLen portStr maxRedirects _,
    fun h => queryAllLoop_all_redirect oracle maxInfoLen portStr h
      maxRedirects _⟩

theorem queryAll_redirect_bound_witness :
    (queryAll (fun _ => some ("whois: a.example".toList)) 250 2
        ("w.example".toList) ("43".toList)).1 = (none, some .redirectLoop) :=
  (queryAll_redirect_bound (fun _ => some ("whois: a.example".toList)) 250 2
      ("w.example".toList) ("43".toList)).2
    fun _ => ⟨("whois: a.example".toList), rfl, by decide⟩

end Whois
